import Mathlib

/-
Verification of the trader analytics engine of the repository:
ELO-style rating engine and weighted consensus predictor
(src/analysis/weighted_consensus_system.py), pairwise trader correlation
with connected-component clustering (src/analysis/correlation_matrix.py),
and the copy-trade detector (src/analysis/copy_trade_detector.py).

Numeric values that the source manipulates as Python floats are embedded
as real numbers (ℝ) where the transcendental `math.pow` is involved
(the rating engine), and as rationals (ℚ) elsewhere, so that the
corresponding definitions stay executable.
-/

namespace TraderAnalytics

/-! Rating engine: `ELORatingSystem` in weighted_consensus_system.py. -/

/-- Embedding of `ELORatingSystem.expected_score` (lines 33-35):
`1 / (1 + math.pow(10, (rating_b - rating_a) / 400))`. -/
noncomputable def expected_score (rating_a rating_b : ℝ) : ℝ :=
  1 / (1 + (10 : ℝ) ^ ((rating_b - rating_a) / 400))

/-- One record of `elo_history` as appended by `update_rating`
(lines 64-72 of weighted_consensus_system.py). -/
structure EloHistEntry where
  timestamp : ℤ
  old_elo : ℝ
  new_elo : ℝ
  change : ℝ
  actual_score : ℝ
  expected : ℝ

/-- State of an `ELORatingSystem`: the `trader_elos` mapping (an
association list, most recent binding first) and the flattened
`elo_history` (per-trader entries recovered by filtering, in
append order). -/
structure EloState where
  elos : List (String × ℝ)
  history : List (String × EloHistEntry)

/-- Default of the `trader_elos` defaultdict: `starting_elo = 1500`. -/
def starting_elo : ℝ := 1500

/-- Base K factor: `k_factor = 32`. -/
def k_factor : ℝ := 32

/-- Read of `self.trader_elos[trader_address]` (defaultdict semantics:
missing traders read as `starting_elo`). -/
def getElo (st : EloState) (trader : String) : ℝ :=
  (st.elos.lookup trader).getD starting_elo

/-- Per-trader view of `elo_history[trader_address]`. -/
def getHistory (st : EloState) (trader : String) : List EloHistEntry :=
  (st.history.filter (fun p => p.1 = trader)).map (fun p => p.2)

/-- Embedding of `ELORatingSystem.update_rating` (lines 37-74):
adjusted K is `k_factor * bet_size * market_difficulty`, the new rating is
`current + adjusted_k * (actual - expected)`, and a history entry is
appended when a timestamp is supplied. Returns the new rating together
with the updated state (the Python method mutates `self`). -/
noncomputable def update_rating (st : EloState) (trader : String)
    (actual_score opponent_rating bet_size market_difficulty : ℝ)
    (timestamp : Option ℤ) : ℝ × EloState :=
  let current_elo := getElo st trader
  let expected := expected_score current_elo opponent_rating
  let adjusted_k := k_factor * bet_size * market_difficulty
  let new_elo := current_elo + adjusted_k * (actual_score - expected)
  let elos := (trader, new_elo) :: st.elos
  let history :=
    match timestamp with
    | some ts => st.history ++
        [(trader, ⟨ts, current_elo, new_elo, new_elo - current_elo,
                   actual_score, expected⟩)]
    | none => st.history
  (new_elo, ⟨elos, history⟩)

/-- One trade row as consumed by `calculate_elo_ratings` (timestamps are
already parsed; the outcome is compared lowercased). -/
structure MTrade where
  trader : String
  outcome : String
  shares : ℝ
  price : ℝ
  timestamp : ℤ

/-- Winning-side trades of a market (lines 249-272): outcome, lowercased,
equals the resolved winning outcome. -/
def winnersOf (trades : List MTrade) (winning : String) : List MTrade :=
  trades.filter (fun t => t.outcome.toLower = winning)

/-- Losing-side trades of a market. -/
def losersOf (trades : List MTrade) (winning : String) : List MTrade :=
  trades.filter (fun t => ¬ t.outcome.toLower = winning)

/-- Average current ELO of the winners of a market, computed from the
state before any update of that market (line 276). -/
noncomputable def avgWinnerElo (st : EloState) (trades : List MTrade)
    (winning : String) : ℝ :=
  ((winnersOf trades winning).map (fun t => getElo st t.trader)).sum /
    (winnersOf trades winning).length

/-- Average current ELO of the losers of a market (line 277). -/
noncomputable def avgLoserElo (st : EloState) (trades : List MTrade)
    (winning : String) : ℝ :=
  ((losersOf trades winning).map (fun t => getElo st t.trader)).sum /
    (losersOf trades winning).length

/-- The bet-size weight used during resolution processing
(lines 281 and 301): `min(bet_size / 100, 2.0)` with
`bet_size = shares * price`. -/
noncomputable def normalizedBetSize (t : MTrade) : ℝ :=
  min (t.shares * t.price / 100) 2

/-- Embedding of the per-market body of
`WeightedConsensusSystem.calculate_elo_ratings` (lines 236-317) for one
resolved market with a known winning outcome: split trades into winners
and losers, and only when both sides are nonempty (`if winners and
losers:`) update every winner against the losers' average pre-update ELO
and then every loser against the winners' average pre-update ELO, with
`market_difficulty = 1.0`. -/
noncomputable def processResolvedMarket (st : EloState)
    (trades : List MTrade) (winning : String) : EloState :=
  let winners := winnersOf trades winning
  let losers := losersOf trades winning
  if winners.isEmpty ∨ losers.isEmpty then st
  else
    let avg_loser_elo := avgLoserElo st trades winning
    let avg_winner_elo := avgWinnerElo st trades winning
    let st1 := winners.foldl (fun s t =>
      (update_rating s t.trader 1 avg_loser_elo (normalizedBetSize t) 1
        (some t.timestamp)).2) st
    losers.foldl (fun s t =>
      (update_rating s t.trader 0 avg_winner_elo (normalizedBetSize t) 1
        (some t.timestamp)).2) st1

/-- Elements delivered by `List.getD` at an index below the length are
members of the list. -/
theorem getD_mem_of_lt {α : Type} :
    ∀ (l : List α) (n : ℕ) (d : α), n < l.length → l.getD n d ∈ l := by
  intro l
  induction l with
  | nil => intro n d h; simp at h
  | cons x xs ih =>
    intro n d h
    cases n with
    | zero => simp [List.getD]
    | succ m =>
      have := ih m d (by simpa using h)
      simp [List.getD] at this ⊢
      right
      simpa using this

/-- Every history entry appended by a fold of `update_rating` calls over a
list of trades (one side of a resolved market) records a new rating equal
to the old one plus `K * bet_size_weight * market_difficulty *
(actual - expected(old, opponent))`. -/
theorem history_mem_foldl_update (actual opp : ℝ) :
    ∀ (L : List MTrade) (st : EloState) (a : String) (e : EloHistEntry),
    (a, e) ∈ (L.foldl (fun s t =>
        (update_rating s t.trader actual opp (normalizedBetSize t) 1
          (some t.timestamp)).2) st).history →
    (a, e) ∈ st.history ∨
    ∃ t ∈ L, a = t.trader ∧ e.actual_score = actual ∧
      e.expected = expected_score e.old_elo opp ∧
      e.new_elo = e.old_elo + 32 * normalizedBetSize t * 1 *
        (actual - expected_score e.old_elo opp) := by
  intro L
  induction L with
  | nil => intro st a e h; exact Or.inl h
  | cons t L ih =>
    intro st a e h
    simp only [List.foldl_cons] at h
    rcases ih _ a e h with h1 | h1
    · simp only [update_rating, List.mem_append, List.mem_singleton] at h1
      rcases h1 with h2 | h2
      · exact Or.inl h2
      · refine Or.inr ⟨t, List.mem_cons_self t L, ?_⟩
        have ha : a = t.trader := by
          have := congrArg Prod.fst h2
          simpa using this
        have he : e = ⟨t.timestamp, getElo st t.trader,
            getElo st t.trader + k_factor * normalizedBetSize t * 1 *
              (actual - expected_score (getElo st t.trader) opp),
            getElo st t.trader + k_factor * normalizedBetSize t * 1 *
              (actual - expected_score (getElo st t.trader) opp) -
              getElo st t.trader,
            actual, expected_score (getElo st t.trader) opp⟩ := by
          have := congrArg Prod.snd h2
          simpa using this
        subst he
        refine ⟨ha, rfl, rfl, ?_⟩
        simp only [k_factor]
    · rcases h1 with ⟨t', ht', rest⟩
      exact Or.inr ⟨t', List.mem_cons_of_mem t ht', rest⟩

/-- C1: every rating update applied while processing a resolved market
sets the trader's new rating to
`old + K * bet_size_weight * difficulty_weight * (actual - expected(old,
opponent))` with `K = 32` and `difficulty_weight = 1`, where the bet-size
weight is `min(shares * price / 100, 2)` and the opponent rating is the
pre-update average ELO of the opposite side. -/
theorem elo_update_formula (st : EloState) (trades : List MTrade)
    (winning : String) (a : String) (e : EloHistEntry)
    (h : (a, e) ∈ (processResolvedMarket st trades winning).history) :
    (a, e) ∈ st.history ∨
    ∃ t ∈ trades, a = t.trader ∧
      ((t.outcome.toLower = winning ∧ e.actual_score = 1 ∧
        e.expected = expected_score e.old_elo (avgLoserElo st trades winning) ∧
        e.new_elo = e.old_elo + 32 * min (t.shares * t.price / 100) 2 * 1 *
          (1 - expected_score e.old_elo (avgLoserElo st trades winning))) ∨
       (¬ t.outcome.toLower = winning ∧ e.actual_score = 0 ∧
        e.expected = expected_score e.old_elo (avgWinnerElo st trades winning) ∧
        e.new_elo = e.old_elo + 32 * min (t.shares * t.price / 100) 2 * 1 *
          (0 - expected_score e.old_elo (avgWinnerElo st trades winning)))) := by
  unfold processResolvedMarket at h
  by_cases hempty : (winnersOf trades winning).isEmpty ∨
      (losersOf trades winning).isEmpty
  · rw [if_pos hempty] at h
    exact Or.inl h
  · rw [if_neg hempty] at h
    rcases history_mem_foldl_update 0 (avgWinnerElo st trades winning) _ _ a e h
      with h1 | h1
    · rcases history_mem_foldl_update 1 (avgLoserElo st trades winning) _ _ a e h1
        with h2 | h2
      · exact Or.inl h2
      · rcases h2 with ⟨t, ht, ha, hact, hexp, hnew⟩
        have htmem : t ∈ trades ∧ t.outcome.toLower = winning := by
          simpa [winnersOf, List.mem_filter] using ht
        refine Or.inr ⟨t, htmem.1, ha, Or.inl ⟨htmem.2, hact, ?_, ?_⟩⟩
        · rw [hexp]
        · rw [hnew]; simp [normalizedBetSize]
    · rcases h1 with ⟨t, ht, ha, hact, hexp, hnew⟩
      have htmem : t ∈ trades ∧ ¬ t.outcome.toLower = winning := by
        simpa [losersOf, List.mem_filter] using ht
      refine Or.inr ⟨t, htmem.1, ha, Or.inr ⟨htmem.2, hact, ?_, ?_⟩⟩
      · rw [hexp]
      · rw [hnew]; simp [normalizedBetSize]

/-- Concrete rating state for the C1 witness. -/
def c1st : EloState := ⟨[], []⟩

/-- Concrete resolved-market trades for the C1 witness: one winner and one
loser. -/
def c1trades : List MTrade :=
  [⟨"W", "yes", 100, 1, 5⟩, ⟨"L", "no", 100, 1, 6⟩]

/-- Default history pair used to select the first update record. -/
def c1default : String × EloHistEntry := ("", ⟨0, 0, 0, 0, 0, 0⟩)

/-- Witness for C1: the first history record produced by processing a
concrete resolved market satisfies the update formula. -/
theorem elo_update_formula_witness :
    (((processResolvedMarket c1st c1trades "yes").history.getD 0 c1default).1,
     ((processResolvedMarket c1st c1trades "yes").history.getD 0 c1default).2)
      ∈ c1st.history ∨
    ∃ t ∈ c1trades,
      ((processResolvedMarket c1st c1trades "yes").history.getD 0 c1default).1
        = t.trader ∧
      ((t.outcome.toLower = "yes" ∧
        ((processResolvedMarket c1st c1trades "yes").history.getD 0
          c1default).2.actual_score = 1 ∧
        ((processResolvedMarket c1st c1trades "yes").history.getD 0
          c1default).2.expected = expected_score
            ((processResolvedMarket c1st c1trades "yes").history.getD 0
              c1default).2.old_elo (avgLoserElo c1st c1trades "yes") ∧
        ((processResolvedMarket c1st c1trades "yes").history.getD 0
          c1default).2.new_elo =
          ((processResolvedMarket c1st c1trades "yes").history.getD 0
            c1default).2.old_elo + 32 * min (t.shares * t.price / 100) 2 * 1 *
          (1 - expected_score
            ((processResolvedMarket c1st c1trades "yes").history.getD 0
              c1default).2.old_elo (avgLoserElo c1st c1trades "yes"))) ∨
       (¬ t.outcome.toLower = "yes" ∧
        ((processResolvedMarket c1st c1trades "yes").history.getD 0
          c1default).2.actual_score = 0 ∧
        ((processResolvedMarket c1st c1trades "yes").history.getD 0
          c1default).2.expected = expected_score
            ((processResolvedMarket c1st c1trades "yes").history.getD 0
              c1default).2.old_elo (avgWinnerElo c1st c1trades "yes") ∧
        ((processResolvedMarket c1st c1trades "yes").history.getD 0
          c1default).2.new_elo =
          ((processResolvedMarket c1st c1trades "yes").history.getD 0
            c1default).2.old_elo + 32 * min (t.shares * t.price / 100) 2 * 1 *
          (0 - expected_score
            ((processResolvedMarket c1st c1trades "yes").history.getD 0
              c1default).2.old_elo (avgWinnerElo c1st c1trades "yes")))) := by
  apply elo_update_formula
  apply getD_mem_of_lt
  have hw : winnersOf c1trades "yes" = [⟨"W", "yes", 100, 1, 5⟩] := by
    simp [winnersOf, c1trades, String.toLower, String.map_eq]
  have hl : losersOf c1trades "yes" = [⟨"L", "no", 100, 1, 6⟩] := by
    simp [losersOf, c1trades, String.toLower, String.map_eq]
  simp [processResolvedMarket, hw, hl, update_rating]

/-- C9: processing a resolved market whose trades are all on the winning
outcome, or all on losing outcomes, leaves every trader's rating value and
rating history unchanged. -/
theorem one_sided_market_no_updates (st : EloState) (trades : List MTrade)
    (winning : String)
    (h : (∀ t ∈ trades, t.outcome.toLower = winning) ∨
         (∀ t ∈ trades, ¬ t.outcome.toLower = winning)) :
    (∀ a, getElo (processResolvedMarket st trades winning) a = getElo st a) ∧
    (∀ a, getHistory (processResolvedMarket st trades winning) a =
      getHistory st a) := by
  have heq : processResolvedMarket st trades winning = st := by
    unfold processResolvedMarket
    rcases h with h | h
    · have hl : losersOf trades winning = [] := by
        simp only [losersOf]
        rw [List.filter_eq_nil_iff]
        intro t ht
        simpa using h t ht
      simp [hl]
    · have hw : winnersOf trades winning = [] := by
        simp only [winnersOf]
        rw [List.filter_eq_nil_iff]
        intro t ht
        simpa using h t ht
      simp [hw]
  rw [heq]
  exact ⟨fun a => rfl, fun a => rfl⟩

/-- Concrete state for the C9 witness. -/
def c9st : EloState := ⟨[("A", 1600)], []⟩

/-- Concrete trades for the C9 witness: a single trade on the winning
outcome (winners but no losers). -/
def c9trades : List MTrade := [⟨"A", "yes", 1, 1, 0⟩]

/-- Witness for C9: a market whose only trade is on the winning outcome
changes neither the trader's rating nor their history. -/
theorem one_sided_market_no_updates_witness :
    getElo (processResolvedMarket c9st c9trades "yes") "A" = getElo c9st "A" ∧
    getHistory (processResolvedMarket c9st c9trades "yes") "A" =
      getHistory c9st "A" := by
  have h := one_sided_market_no_updates c9st c9trades "yes"
    (Or.inl (by simp [c9trades, String.toLower, String.map_eq]))
  exact ⟨h.1 "A", h.2 "A"⟩

/-- C3: for all ratings a and b, `expected_score(a, b)` equals
`1 / (1 + 10^((b - a) / 400))`, lies in [0, 1], and satisfies
`expected_score(a, b) + expected_score(b, a) = 1`. -/
theorem expected_score_formula_bounds_symm (a b : ℝ) :
    expected_score a b = 1 / (1 + (10 : ℝ) ^ ((b - a) / 400)) ∧
    0 ≤ expected_score a b ∧ expected_score a b ≤ 1 ∧
    expected_score a b + expected_score b a = 1 := by
  have hx : 0 < (10 : ℝ) ^ ((b - a) / 400) :=
    Real.rpow_pos_of_pos (by norm_num) _
  have hy : 0 < (10 : ℝ) ^ ((a - b) / 400) :=
    Real.rpow_pos_of_pos (by norm_num) _
  refine ⟨rfl, ?_, ?_, ?_⟩
  · exact div_nonneg (by norm_num) (by linarith)
  · rw [expected_score, div_le_one (by linarith)]
    linarith
  · have hneg : (a - b) / 400 = -((b - a) / 400) := by ring
    unfold expected_score
    rw [hneg, Real.rpow_neg (by norm_num : (0:ℝ) ≤ 10)]
    have h1 : (1 : ℝ) + (10 : ℝ) ^ ((b - a) / 400) ≠ 0 := by linarith
    have h2 : (1 : ℝ) + ((10 : ℝ) ^ ((b - a) / 400))⁻¹ ≠ 0 := by
      have : 0 < ((10 : ℝ) ^ ((b - a) / 400))⁻¹ := inv_pos.mpr hx
      linarith
    field_simp
    ring

/-! Consensus predictor: `WeightedConsensusSystem.calculate_weighted_consensus`
(weighted_consensus_system.py, lines 341-418). Ratings are inputs here
(`self.elo_system.get_elo`), modelled as a function from trader to ℚ. -/

/-- One trade row as consumed by the consensus loop (only the trader and
outcome fields are read for the weights). -/
structure CTrade where
  trader : String
  outcome : String
deriving DecidableEq

/-- Accumulation step of the `outcome_weights` defaultdict
(`outcome_weights[outcome] += elo`, line 362): association list keyed by
outcome in first-insertion order, as a Python dict. -/
def addWeight : List (String × ℚ) → String → ℚ → List (String × ℚ)
  | [], o, v => [(o, v)]
  | (k, w) :: rest, o, v =>
      if k = o then (k, w + v) :: rest else (k, w) :: addWeight rest o v

/-- Lookup in an outcome-weights association list (0 when absent, as for
a float defaultdict). -/
def weightOf : List (String × ℚ) → String → ℚ
  | [], _ => 0
  | (k, w) :: rest, o => if k = o then w else weightOf rest o

/-- Embedding of the `outcome_weights` computed for one market
(lines 353-366): every trade adds its trader's rating to its outcome. -/
def outcomeWeights (rating : String → ℚ) (trades : List CTrade) :
    List (String × ℚ) :=
  trades.foldl (fun acc t => addWeight acc t.outcome (rating t.trader)) []

/-- Assignment step of the `trader_positions` dict
(`trader_positions[trader] = outcome`, line 363): overwrite the value,
keep first-insertion key order. -/
def setPos : List (String × String) → String → String → List (String × String)
  | [], a, o => [(a, o)]
  | (k, v) :: rest, a, o =>
      if k = a then (k, o) :: rest else (k, v) :: setPos rest a o

/-- Embedding of the `trader_positions` dict built by the same loop. -/
def traderPositions (trades : List CTrade) : List (String × String) :=
  trades.foldl (fun acc t => setPos acc t.trader t.outcome) []

/-- Lookup in a trader-positions association list. -/
def posOf : List (String × String) → String → Option String
  | [], _ => none
  | (k, v) :: rest, a => if k = a then some v else posOf rest a

/-- Claimed (spec-worded) outcome weights for claim C2, to be compared
with `outcomeWeights` from the source: group the market's trades by
trader, take each trader's most recent position as their single current
stance, and add the trader's rating exactly once to that stance's
outcome. -/
def specOutcomeWeights (rating : String → ℚ) (trades : List CTrade) :
    List (String × ℚ) :=
  (traderPositions trades).foldl (fun acc p => addWeight acc p.2 (rating p.1)) []

/-- Stable descending insertion, mirroring Python's stable
`sorted(..., key=lambda x: x[1], reverse=True)` (line 372). -/
def insertDesc (p : String × ℚ) : List (String × ℚ) → List (String × ℚ)
  | [] => [p]
  | q :: rest => if q.2 ≤ p.2 then p :: q :: rest else q :: insertDesc p rest

/-- The `sorted_outcomes` list (line 372). -/
def sortedOutcomes (ws : List (String × ℚ)) : List (String × ℚ) :=
  ws.foldr insertDesc []

/-- The `total_weight` sum (line 381). -/
def totalWeight (ws : List (String × ℚ)) : ℚ :=
  (ws.map (fun p => p.2)).sum

/-- The `top_weight` value (line 378). -/
def topWeight (ws : List (String × ℚ)) : ℚ :=
  ((sortedOutcomes ws).map (fun p => p.2)).getD 0 0

/-- The `second_weight` value (line 379, 0 when only one outcome). -/
def secondWeight (ws : List (String × ℚ)) : ℚ :=
  ((sortedOutcomes ws).map (fun p => p.2)).getD 1 0

/-- The `top_outcome` prediction (line 377). -/
def predictedOutcome (ws : List (String × ℚ)) : Option String :=
  ((sortedOutcomes ws).head?).map (fun p => p.1)

/-- The confidence score (lines 384-387):
`(top_weight - second_weight) / total_weight * 100` when the total weight
is positive, else 0. -/
def confidence (ws : List (String × ℚ)) : ℚ :=
  if 0 < totalWeight ws then
    ((topWeight ws - secondWeight ws) / totalWeight ws) * 100
  else 0

/-- Rating assignment for the C2 counterexample. -/
def c2rating : String → ℚ := fun _ => 1500

/-- Trades for the C2 counterexample: trader A holds two trades on the
same outcome of one market, trader B one trade. -/
def c2trades : List CTrade := [⟨"A", "Yes"⟩, ⟨"A", "Yes"⟩, ⟨"B", "No"⟩]

/-- Counterexample for C2: with two trades by the same trader on the same
market, the source adds the trader's rating once per trade (3000 on
"Yes"), not exactly once per trader as the claim states (1500). -/
theorem consensus_weights_counterexample :
    weightOf (outcomeWeights c2rating c2trades) "Yes" = 3000 ∧
    weightOf (specOutcomeWeights c2rating c2trades) "Yes" = 1500 ∧
    outcomeWeights c2rating c2trades ≠ specOutcomeWeights c2rating c2trades := by
  refine ⟨?_, ?_, ?_⟩ <;>
    simp [outcomeWeights, specOutcomeWeights, traderPositions, setPos,
      addWeight, weightOf, c2rating, c2trades] <;> norm_num

/-- Key step lemma: `addWeight` adds the value to exactly the given key. -/
theorem weightOf_addWeight (acc : List (String × ℚ)) (k : String) (v : ℚ)
    (o : String) :
    weightOf (addWeight acc k v) o =
      weightOf acc o + (if k = o then v else 0) := by
  induction acc with
  | nil =>
    by_cases h : k = o <;> simp [addWeight, weightOf, h]
  | cons p rest ih =>
    obtain ⟨k', w⟩ := p
    by_cases h1 : k' = k
    · subst h1
      by_cases h2 : k' = o <;> simp [addWeight, weightOf, h2]
    · by_cases h2 : k' = o
      · subst h2
        have : ¬ k = k' := fun h => h1 h.symm
        simp [addWeight, weightOf, h1, this]
      · simp [addWeight, weightOf, h1, h2, ih]

/-- Fold version of the previous lemma over a trade list. -/
theorem weightOf_outcomeWeights_aux (rating : String → ℚ) (o : String) :
    ∀ (trades : List CTrade) (acc : List (String × ℚ)),
    weightOf (trades.foldl
        (fun acc t => addWeight acc t.outcome (rating t.trader)) acc) o =
      weightOf acc o +
        ((trades.filter (fun t => t.outcome = o)).map
          (fun t => rating t.trader)).sum := by
  intro trades
  induction trades with
  | nil => intro acc; simp
  | cons t rest ih =>
    intro acc
    by_cases h : t.outcome = o
    · simp [List.foldl_cons, ih, weightOf_addWeight, h, List.filter_cons]
      ring
    · simp [List.foldl_cons, ih, weightOf_addWeight, h, List.filter_cons]

/-- Helper: `getLast?` of a cons, expressed through `Option.or`. -/
theorem getLast?_cons_or {α : Type} (a : α) (l : List α) :
    (a :: l).getLast? = (l.getLast?).or (some a) := by
  cases l with
  | nil => simp
  | cons b m =>
    rw [List.getLast?_cons_cons]
    cases h : (b :: m).getLast? with
    | none => simp [List.getLast?_eq_none_iff] at h
    | some x => simp [Option.or]

/-- Step lemma for `setPos`: it overwrites exactly the given key. -/
theorem posOf_setPos (acc : List (String × String)) (a o x : String) :
    posOf (setPos acc a o) x = if a = x then some o else posOf acc x := by
  induction acc with
  | nil =>
    by_cases h : a = x <;> simp [setPos, posOf, h]
  | cons p rest ih =>
    obtain ⟨k, v⟩ := p
    by_cases h1 : k = a
    · subst h1
      by_cases h2 : k = x <;> simp [setPos, posOf, h2]
    · by_cases h2 : k = x
      · subst h2
        have : ¬ a = k := fun h => h1 h.symm
        simp [setPos, posOf, h1, this]
      · simp [setPos, posOf, h1, h2, ih]

/-- Fold version: `trader_positions` records the most recent position. -/
theorem posOf_traderPositions_aux (x : String) :
    ∀ (trades : List CTrade) (acc : List (String × String)),
    posOf (trades.foldl (fun acc t => setPos acc t.trader t.outcome) acc) x =
      (((trades.filter (fun t => t.trader = x)).map
          (fun t => t.outcome)).getLast?).or (posOf acc x) := by
  intro trades
  induction trades with
  | nil => intro acc; simp [Option.or]
  | cons t rest ih =>
    intro acc
    rw [List.foldl_cons, ih, posOf_setPos]
    by_cases h : t.trader = x
    · rw [if_pos h]
      have hf : (t :: rest).filter (fun t => t.trader = x) =
          t :: rest.filter (fun t => t.trader = x) := by
        simp [List.filter_cons, h]
      rw [hf, List.map_cons, getLast?_cons_or, Option.or_assoc]
      cases ((rest.filter (fun t => t.trader = x)).map
          (fun t => t.outcome)).getLast? <;> simp [Option.or]
    · rw [if_neg h]
      have hf : (t :: rest).filter (fun t => t.trader = x) =
          rest.filter (fun t => t.trader = x) := by
        simp [List.filter_cons, h]
      rw [hf]

/-- C2 amended: the consensus loop adds the trader's rating once per
trade — the weight of an outcome is the sum of the ratings of the traders
of all trades on that outcome (a trader with several trades contributes
once per trade) — while `trader_positions` does record each trader's most
recent position, without affecting the weights. -/
theorem consensus_weights_per_trade (rating : String → ℚ)
    (trades : List CTrade) (o : String) :
    weightOf (outcomeWeights rating trades) o =
      ((trades.filter (fun t => t.outcome = o)).map
        (fun t => rating t.trader)).sum ∧
    ∀ a, posOf (traderPositions trades) a =
      ((trades.filter (fun t => t.trader = a)).map
        (fun t => t.outcome)).getLast? := by
  constructor
  · have := weightOf_outcomeWeights_aux rating o trades []
    simpa [outcomeWeights, weightOf] using this
  · intro a
    have h := posOf_traderPositions_aux a trades []
    rw [traderPositions, h]
    simp only [posOf, Option.or_none]

/-- Rating assignment for the C4 consensus scenario: 1800, 1600 and 1400. -/
def c4rating : String → ℚ :=
  fun a => if a = "T1" then 1800 else if a = "T2" then 1600 else 1400

/-- Trades for the C4 consensus scenario: two positions on "Yes"
(ratings 1800 and 1400) and one on "No" (rating 1600). -/
def c4trades : List CTrade := [⟨"T1", "Yes"⟩, ⟨"T2", "No"⟩, ⟨"T3", "Yes"⟩]

/-- C4: the consensus confidence equals
`(top_weight - second_weight) / total_weight * 100` whenever the total
weight is positive, and on the scenario with ratings 1800/1400 on "Yes"
and 1600 on "No" the predicted outcome is "Yes" with confidence
`(3200 - 1600) / 4800 * 100 = 100/3 ≈ 33.3`. -/
theorem consensus_confidence_formula :
    (∀ (rating : String → ℚ) (trades : List CTrade),
      0 < totalWeight (outcomeWeights rating trades) →
      confidence (outcomeWeights rating trades) =
        ((topWeight (outcomeWeights rating trades) -
          secondWeight (outcomeWeights rating trades)) /
          totalWeight (outcomeWeights rating trades)) * 100) ∧
    predictedOutcome (outcomeWeights c4rating c4trades) = some "Yes" ∧
    confidence (outcomeWeights c4rating c4trades) = 100 / 3 := by
  refine ⟨?_, ?_, ?_⟩
  · intro rating trades h
    simp [confidence, h]
  · simp [predictedOutcome, sortedOutcomes, outcomeWeights, c4rating,
      c4trades, addWeight, insertDesc] <;> norm_num
  · simp [confidence, totalWeight, topWeight, secondWeight,
      sortedOutcomes, outcomeWeights, c4rating, c4trades, addWeight,
      insertDesc] <;> norm_num

/-- Witness for C4: the scenario instantiates the positive-total-weight
hypothesis of the confidence formula. -/
theorem consensus_confidence_formula_witness :
    0 < totalWeight (outcomeWeights c4rating c4trades) ∧
    confidence (outcomeWeights c4rating c4trades) =
      ((topWeight (outcomeWeights c4rating c4trades) -
        secondWeight (outcomeWeights c4rating c4trades)) /
        totalWeight (outcomeWeights c4rating c4trades)) * 100 :=
  ⟨by simp [totalWeight, outcomeWeights, c4rating, c4trades, addWeight] <;>
      norm_num,
   consensus_confidence_formula.1 c4rating c4trades
     (by simp [totalWeight, outcomeWeights, c4rating, c4trades, addWeight] <;>
       norm_num)⟩

/-! Correlation engine: `TraderCorrelationMatrix` in correlation_matrix.py.
Trade rows carry the columns selected by `_get_trader_trades`; timestamps
are modelled in hours (the source converts second differences to hours). -/

/-- One trade row of the correlation and copy-trade analyses. -/
structure RTrade where
  market_id : String
  outcome : String
  timestamp : ℚ
  side : String
  shares : ℚ
  price : ℚ
deriving DecidableEq

/-- Set of market ids a trader touched (line 220:
`set(t['market_id'] for t in trades)`). -/
def marketsOf (trades : List RTrade) : Finset String :=
  (trades.map (fun t => t.market_id)).toFinset

/-- Embedding of `_calculate_market_overlap` (lines 82-94):
`|shared| / |total|` with zero guards for empty inputs. -/
def market_overlap (A B : Finset String) : ℚ :=
  if A = ∅ ∨ B = ∅ then 0
  else if A ∪ B = ∅ then 0
  else ((A ∩ B).card : ℚ) / ((A ∪ B).card : ℚ)

/-- Outcome labels of a trader's trades on one market. -/
def outcomesOn (trades : List RTrade) (m : String) : List String :=
  (trades.filter (fun t => t.market_id = m)).map (fun t => t.outcome)

/-- The most frequent outcome of a list
(`max(set(outcomes), key=outcomes.count)`, lines 128-129). Python's set
iteration order leaves ties unspecified; here ties go to the earliest
occurrence, which does not affect any counted quantity. -/
def mostCommon (l : List String) : String :=
  match l.dedup with
  | [] => ""
  | x :: rest =>
      rest.foldl (fun best o => if l.count best < l.count o then o else best) x

/-- Embedding of `_calculate_outcome_agreement` (lines 96-136): over the
shared markets, the fraction where the two traders' most frequent
outcomes match case-insensitively, paired with the shared-market count. -/
def outcome_agreement (ta tb : List RTrade) : ℚ × ℕ :=
  let shared := marketsOf ta ∩ marketsOf tb
  if shared = ∅ then (0, 0)
  else
    let agreements := (shared.filter (fun m =>
      (mostCommon (outcomesOn ta m)).toLower =
        (mostCommon (outcomesOn tb m)).toLower)).card
    (if 0 < shared.card then (agreements : ℚ) / (shared.card : ℚ) else 0,
     shared.card)

/-- Earliest trade timestamp of a trader on one market (lines 163-167). -/
def earliestOn (trades : List RTrade) (m : String) : ℚ :=
  match (trades.filter (fun t => t.market_id = m)).map (fun t => t.timestamp) with
  | [] => 0
  | x :: xs => xs.foldl min x

/-- Embedding of `_calculate_timing_similarity` (lines 138-184):
`1 - min(avg_time_diff_hours / 24, 1)` over the shared markets, where each
difference is the absolute gap between the traders' earliest trades. -/
def timing_similarity (ta tb : List RTrade) : ℚ :=
  let shared := marketsOf ta ∩ marketsOf tb
  if shared = ∅ then 0
  else
    let avg := (shared.sum fun m => |earliestOn ta m - earliestOn tb m|) /
      (shared.card : ℚ)
    1 - min (avg / 24) 1

/-- Result record of `calculate_pairwise_correlation` (the rounding of the
reported values to three decimals for CSV output is not modelled). -/
structure CorrResult where
  market_overlap : ℚ
  outcome_agreement : ℚ
  timing_similarity : ℚ
  correlation_score : ℚ
  shared_markets : ℕ
deriving DecidableEq

/-- Embedding of `calculate_pairwise_correlation` (lines 186-248): the
zero record when either trader has no trades, otherwise the three
dimensions and the weighted score
`overlap * 0.3 + agreement * 0.5 + timing * 0.2`. -/
def calculate_pairwise_correlation (ta tb : List RTrade) : CorrResult :=
  if ta = [] ∨ tb = [] then ⟨0, 0, 0, 0, 0⟩
  else
    let mo := market_overlap (marketsOf ta) (marketsOf tb)
    let oa := (outcome_agreement ta tb).1
    let sm := (outcome_agreement ta tb).2
    let ts := timing_similarity ta tb
    ⟨mo, oa, ts, mo * 0.3 + oa * 0.5 + ts * 0.2, sm⟩

/-- The market-overlap dimension lies in [0, 1]. -/
theorem market_overlap_bounds (A B : Finset String) :
    0 ≤ market_overlap A B ∧ market_overlap A B ≤ 1 := by
  unfold market_overlap
  by_cases h1 : A = ∅ ∨ B = ∅
  · simp [h1]
  · rw [if_neg h1]
    by_cases h2 : A ∪ B = ∅
    · simp [h2]
    · rw [if_neg h2]
      have hpos : (0 : ℚ) < ((A ∪ B).card : ℚ) := by
        have := Finset.card_pos.mpr (Finset.nonempty_iff_ne_empty.mpr h2)
        exact_mod_cast this
      constructor
      · exact div_nonneg (by positivity) (le_of_lt hpos)
      · rw [div_le_one hpos]
        exact_mod_cast Finset.card_le_card Finset.inter_subset_union

/-- The outcome-agreement dimension lies in [0, 1]. -/
theorem outcome_agreement_bounds (ta tb : List RTrade) :
    0 ≤ (outcome_agreement ta tb).1 ∧ (outcome_agreement ta tb).1 ≤ 1 := by
  unfold outcome_agreement
  by_cases h1 : marketsOf ta ∩ marketsOf tb = ∅
  · simp [h1]
  · rw [if_neg h1]
    have h2 : 0 < (marketsOf ta ∩ marketsOf tb).card :=
      Finset.card_pos.mpr (Finset.nonempty_iff_ne_empty.mpr h1)
    have hpos : (0 : ℚ) < ((marketsOf ta ∩ marketsOf tb).card : ℚ) := by
      exact_mod_cast h2
    simp only [if_pos h2]
    constructor
    · exact div_nonneg (by positivity) (le_of_lt hpos)
    · rw [div_le_one hpos]
      exact_mod_cast Finset.card_filter_le _ _

/-- The timing-similarity dimension lies in [0, 1]. -/
theorem timing_similarity_bounds (ta tb : List RTrade) :
    0 ≤ timing_similarity ta tb ∧ timing_similarity ta tb ≤ 1 := by
  unfold timing_similarity
  by_cases h1 : marketsOf ta ∩ marketsOf tb = ∅
  · simp [h1]
  · rw [if_neg h1]
    have havg : 0 ≤ (((marketsOf ta ∩ marketsOf tb).sum
        fun m => |earliestOn ta m - earliestOn tb m|) /
        ((marketsOf ta ∩ marketsOf tb).card : ℚ)) := by
      apply div_nonneg
      · exact Finset.sum_nonneg fun m _ => abs_nonneg _
      · positivity
    constructor
    · have : min (((marketsOf ta ∩ marketsOf tb).sum
          fun m => |earliestOn ta m - earliestOn tb m|) /
          ((marketsOf ta ∩ marketsOf tb).card : ℚ) / 24) 1 ≤ 1 :=
        min_le_right _ _
      linarith
    · have : 0 ≤ min (((marketsOf ta ∩ marketsOf tb).sum
          fun m => |earliestOn ta m - earliestOn tb m|) /
          ((marketsOf ta ∩ marketsOf tb).card : ℚ) / 24) 1 :=
        le_min (by positivity) (by norm_num)
      linarith

/-- C5: for every pair of traders with at least the minimum number of
shared markets, the composite correlation score equals
`0.30 * market_overlap + 0.50 * outcome_agreement +
0.20 * timing_similarity` and lies in [0, 1]. -/
theorem correlation_score_formula_bounds (ta tb : List RTrade)
    (minShared : ℕ)
    (_h : minShared ≤ (calculate_pairwise_correlation ta tb).shared_markets) :
    (calculate_pairwise_correlation ta tb).correlation_score =
      0.30 * (calculate_pairwise_correlation ta tb).market_overlap +
      0.50 * (calculate_pairwise_correlation ta tb).outcome_agreement +
      0.20 * (calculate_pairwise_correlation ta tb).timing_similarity ∧
    0 ≤ (calculate_pairwise_correlation ta tb).correlation_score ∧
    (calculate_pairwise_correlation ta tb).correlation_score ≤ 1 := by
  unfold calculate_pairwise_correlation
  by_cases hempty : ta = [] ∨ tb = []
  · simp [hempty]
  · rw [if_neg hempty]
    simp only
    have hmo := market_overlap_bounds (marketsOf ta) (marketsOf tb)
    have hoa := outcome_agreement_bounds ta tb
    have hts := timing_similarity_bounds ta tb
    refine ⟨by ring, ?_, ?_⟩
    · nlinarith [hmo.1, hoa.1, hts.1]
    · nlinarith [hmo.2, hoa.2, hts.2, hmo.1, hoa.1, hts.1]

/-- Trades of the first trader of the C5 witness pair: three markets. -/
def c5ta : List RTrade :=
  [⟨"M1", "Yes", 0, "BUY", 1, 1⟩, ⟨"M2", "No", 1, "BUY", 1, 1⟩,
   ⟨"M3", "Yes", 2, "BUY", 1, 1⟩]

/-- Trades of the second trader of the C5 witness pair: the same three
markets. -/
def c5tb : List RTrade :=
  [⟨"M1", "Yes", 3, "BUY", 1, 1⟩, ⟨"M2", "Yes", 4, "BUY", 1, 1⟩,
   ⟨"M3", "No", 5, "BUY", 1, 1⟩]

/-- Witness for C5: a concrete pair with three shared markets meets the
reference minimum of 3 and satisfies the formula and the bounds. -/
theorem correlation_score_formula_bounds_witness :
    3 ≤ (calculate_pairwise_correlation c5ta c5tb).shared_markets ∧
    ((calculate_pairwise_correlation c5ta c5tb).correlation_score =
      0.30 * (calculate_pairwise_correlation c5ta c5tb).market_overlap +
      0.50 * (calculate_pairwise_correlation c5ta c5tb).outcome_agreement +
      0.20 * (calculate_pairwise_correlation c5ta c5tb).timing_similarity ∧
    0 ≤ (calculate_pairwise_correlation c5ta c5tb).correlation_score ∧
    (calculate_pairwise_correlation c5ta c5tb).correlation_score ≤ 1) :=
  ⟨by decide, correlation_score_formula_bounds c5ta c5tb 3 (by decide)⟩

/-- Unordered trader pairs in list order (`for i, trader_a ...` /
`for trader_b in traders[i+1:]`, lines 277-278). -/
def pairsOf : List String → List (String × String)
  | [] => []
  | a :: rest => (rest.map (fun b => (a, b))) ++ pairsOf rest

/-- Embedding of `build_correlation_matrix` (lines 250-308, matrix part):
a pair is stored, keyed in list order with its correlation score, only
when its shared-market count reaches `min_shared_markets`. -/
def build_correlation_matrix (traders : List String)
    (tradesOf : String → List RTrade) (minShared : ℕ) :
    List ((String × String) × ℚ) :=
  (pairsOf traders).filterMap (fun p =>
    let c := calculate_pairwise_correlation (tradesOf p.1) (tradesOf p.2)
    if minShared ≤ c.shared_markets then some (p, c.correlation_score)
    else none)

/-- Membership in the matrix forces the shared-market minimum. -/
theorem mem_matrix_min_shared (traders : List String)
    (tradesOf : String → List RTrade) (minShared : ℕ)
    (X Y : String) (s : ℚ)
    (h : ((X, Y), s) ∈ build_correlation_matrix traders tradesOf minShared) :
    minShared ≤
      (calculate_pairwise_correlation (tradesOf X) (tradesOf Y)).shared_markets := by
  unfold build_correlation_matrix at h
  rw [List.mem_filterMap] at h
  obtain ⟨p, _, hp⟩ := h
  by_cases hc : minShared ≤
      (calculate_pairwise_correlation (tradesOf p.1) (tradesOf p.2)).shared_markets
  · simp only [if_pos hc, Option.some.injEq] at hp
    have hpx : p = (X, Y) := by
      have := congrArg Prod.fst hp
      simpa using this
    rw [hpx] at hc
    exact hc
  · simp [if_neg hc] at hp

/-- C8: a trader pair whose shared-market count is below the minimum is
omitted from the correlation matrix entirely; in particular two traders
with no shared markets have `market_overlap = 0` and no entry in the
matrix in either key order. -/
theorem below_minimum_pair_omitted (traders : List String)
    (tradesOf : String → List RTrade) (minShared : ℕ) :
    (∀ X Y s, (calculate_pairwise_correlation (tradesOf X)
        (tradesOf Y)).shared_markets < minShared →
      ((X, Y), s) ∉ build_correlation_matrix traders tradesOf minShared) ∧
    (∀ A B, 0 < minShared →
      marketsOf (tradesOf A) ∩ marketsOf (tradesOf B) = ∅ →
      (calculate_pairwise_correlation (tradesOf A)
        (tradesOf B)).market_overlap = 0 ∧
      ∀ s, ((A, B), s) ∉ build_correlation_matrix traders tradesOf minShared ∧
        ((B, A), s) ∉ build_correlation_matrix traders tradesOf minShared) := by
  have hzero : ∀ A B : String, marketsOf (tradesOf A) ∩ marketsOf (tradesOf B) = ∅ →
      (calculate_pairwise_correlation (tradesOf A) (tradesOf B)).shared_markets
        = 0 := by
    intro A B hdisj
    unfold calculate_pairwise_correlation
    by_cases hempty : tradesOf A = [] ∨ tradesOf B = []
    · simp [hempty]
    · rw [if_neg hempty]
      simp only
      unfold outcome_agreement
      simp [hdisj]
  constructor
  · intro X Y s hlt hmem
    exact absurd (mem_matrix_min_shared traders tradesOf minShared X Y s hmem)
      (by omega)
  · intro A B hmin hdisj
    have hsym : marketsOf (tradesOf B) ∩ marketsOf (tradesOf A) = ∅ := by
      rwa [Finset.inter_comm]
    refine ⟨?_, ?_⟩
    · unfold calculate_pairwise_correlation
      by_cases hempty : tradesOf A = [] ∨ tradesOf B = []
      · simp [hempty]
      · rw [if_neg hempty]
        simp only
        unfold market_overlap
        by_cases h1 : marketsOf (tradesOf A) = ∅ ∨ marketsOf (tradesOf B) = ∅
        · simp [h1]
        · rw [if_neg h1]
          by_cases h2 : marketsOf (tradesOf A) ∪ marketsOf (tradesOf B) = ∅
          · simp [h2]
          · rw [if_neg h2, hdisj]
            simp
    · intro s
      constructor
      · intro hmem
        have := mem_matrix_min_shared traders tradesOf minShared A B s hmem
        rw [hzero A B hdisj] at this
        omega
      · intro hmem
        have := mem_matrix_min_shared traders tradesOf minShared B A s hmem
        rw [hzero B A hsym] at this
        omega

/-- Trader universe for the C8 witness. -/
def c8traders : List String := ["A", "B"]

/-- Trade histories for the C8 witness: the two traders touch disjoint
markets. -/
def c8tradesOf : String → List RTrade :=
  fun a => if a = "A" then [⟨"M1", "Yes", 0, "BUY", 1, 1⟩]
    else [⟨"M2", "No", 1, "BUY", 1, 1⟩]

/-- Witness for C8: with the reference minimum 3, the disjoint pair has
overlap 0 and no matrix entry. -/
theorem below_minimum_pair_omitted_witness :
    (calculate_pairwise_correlation (c8tradesOf "A")
      (c8tradesOf "B")).market_overlap = 0 ∧
    ((("A", "B"), (0 : ℚ)) ∉ build_correlation_matrix c8traders c8tradesOf 3 ∧
     (("B", "A"), (0 : ℚ)) ∉ build_correlation_matrix c8traders c8tradesOf 3) := by
  have h := (below_minimum_pair_omitted c8traders c8tradesOf 3).2 "A" "B"
    (by norm_num) (by decide)
  exact ⟨h.1, h.2 0⟩

/-! Clustering: `identify_correlation_clusters` (correlation_matrix.py,
lines 310-392). The matrix argument corresponds to the output of
`build_correlation_matrix`; the source's final annotation of each cluster
with its average internal correlation and the sort by that average only
reorder and decorate the clusters, so they are not modelled — cluster
membership, which the claim is about, is unaffected. -/

/-- Symmetrized edge list of the high-correlation adjacency
(lines 326-330): for every matrix entry with score at or above the
threshold, both directions are recorded. -/
def edgesOf : List ((String × String) × ℚ) → ℚ → List (String × String)
  | [], _ => []
  | e :: rest, θ =>
      if θ ≤ e.2 then (e.1.1, e.1.2) :: (e.1.2, e.1.1) :: edgesOf rest θ
      else edgesOf rest θ

/-- Neighbour list of a trader in the adjacency
(`adjacency[trader]`; a list rather than a set, which only affects
traversal order, not the visited/cluster sets). -/
def adjOf (M : List ((String × String) × ℚ)) (θ : ℚ) (x : String) :
    List String :=
  ((edgesOf M θ).filter (fun e => e.1 = x)).map (fun e => e.2)

/-- All traders occurring in the adjacency. -/
def vertexSet (M : List ((String × String) × ℚ)) (θ : ℚ) : Finset String :=
  ((edgesOf M θ).map (fun e => e.1)).toFinset

/-- The keys of the `adjacency` dict in first-insertion order
(`for trader in adjacency.keys()`, line 337). -/
def keysOf (M : List ((String × String) × ℚ)) (θ : ℚ) : List String :=
  ((edgesOf M θ).map (fun e => e.1)).foldl
    (fun acc x => if x ∈ acc then acc else acc ++ [x]) []

/-- Characterization of the symmetrized edge list. -/
theorem mem_edgesOf {M : List ((String × String) × ℚ)} {θ : ℚ}
    {a b : String} :
    (a, b) ∈ edgesOf M θ ↔
      ∃ s, (((a, b), s) ∈ M ∨ ((b, a), s) ∈ M) ∧ θ ≤ s := by
  induction M with
  | nil => simp [edgesOf]
  | cons e rest ih =>
    obtain ⟨⟨c, d⟩, s'⟩ := e
    by_cases hs : θ ≤ s'
    · simp only [edgesOf, if_pos hs]
      constructor
      · intro h
        rcases List.mem_cons.mp h with h | h
        · simp only [Prod.mk.injEq] at h
          refine ⟨s', Or.inl ?_, hs⟩
          rw [List.mem_cons]
          exact Or.inl (by simp [h.1, h.2])
        · rcases List.mem_cons.mp h with h | h
          · simp only [Prod.mk.injEq] at h
            refine ⟨s', Or.inr ?_, hs⟩
            rw [List.mem_cons]
            exact Or.inl (by simp [h.1, h.2])
          · rcases ih.mp h with ⟨s, hmem, hθ⟩
            refine ⟨s, ?_, hθ⟩
            rcases hmem with hm | hm
            · exact Or.inl (List.mem_cons_of_mem _ hm)
            · exact Or.inr (List.mem_cons_of_mem _ hm)
      · rintro ⟨s, (hm | hm), hθ⟩
        · rcases List.mem_cons.mp hm with hm | hm
          · simp only [Prod.mk.injEq] at hm
            rw [List.mem_cons]
            exact Or.inl (by simp [hm.1.1, hm.1.2])
          · exact List.mem_cons_of_mem _ (List.mem_cons_of_mem _
              (ih.mpr ⟨s, Or.inl hm, hθ⟩))
        · rcases List.mem_cons.mp hm with hm | hm
          · simp only [Prod.mk.injEq] at hm
            rw [List.mem_cons]
            refine Or.inr ?_
            rw [List.mem_cons]
            exact Or.inl (by simp [hm.1.1, hm.1.2])
          · exact List.mem_cons_of_mem _ (List.mem_cons_of_mem _
              (ih.mpr ⟨s, Or.inr hm, hθ⟩))
    · simp only [edgesOf, if_neg hs]
      rw [ih]
      constructor
      · rintro ⟨s, hm, hθ⟩
        refine ⟨s, ?_, hθ⟩
        rcases hm with hm | hm
        · exact Or.inl (List.mem_cons_of_mem _ hm)
        · exact Or.inr (List.mem_cons_of_mem _ hm)
      · rintro ⟨s, (hm | hm), hθ⟩
        · rcases List.mem_cons.mp hm with hm | hm
          · simp only [Prod.mk.injEq] at hm
            exact absurd (hm.2 ▸ hθ) hs
          · exact ⟨s, Or.inl hm, hθ⟩
        · rcases List.mem_cons.mp hm with hm | hm
          · simp only [Prod.mk.injEq] at hm
            exact absurd (hm.2 ▸ hθ) hs
          · exact ⟨s, Or.inr hm, hθ⟩

/-- The edge list is symmetric. -/
theorem edgesOf_symm {M : List ((String × String) × ℚ)} {θ : ℚ}
    {a b : String} (h : (a, b) ∈ edgesOf M θ) : (b, a) ∈ edgesOf M θ := by
  rcases mem_edgesOf.mp h with ⟨s, hmem, hθ⟩
  exact mem_edgesOf.mpr ⟨s, hmem.symm, hθ⟩

/-- Adjacency membership coincides with edge membership. -/
theorem mem_adjOf {M : List ((String × String) × ℚ)} {θ : ℚ}
    {a b : String} : b ∈ adjOf M θ a ↔ (a, b) ∈ edgesOf M θ := by
  unfold adjOf
  simp only [List.mem_map, List.mem_filter, decide_eq_true_eq]
  constructor
  · rintro ⟨e, ⟨hmem, he1⟩, he2⟩
    have he : e = (a, b) := by
      obtain ⟨e1, e2⟩ := e
      simp only [Prod.mk.injEq]
      exact ⟨by simpa using he1, by simpa using he2⟩
    rwa [he] at hmem
  · intro h
    exact ⟨(a, b), ⟨h, rfl⟩, rfl⟩

/-- The adjacency relation is symmetric. -/
theorem adjOf_symm {M : List ((String × String) × ℚ)} {θ : ℚ}
    {a b : String} (h : b ∈ adjOf M θ a) : a ∈ adjOf M θ b :=
  mem_adjOf.mpr (edgesOf_symm (mem_adjOf.mp h))

/-- Neighbours lie in the vertex set. -/
theorem adjOf_subset_vertexSet (M : List ((String × String) × ℚ)) (θ : ℚ)
    (a b : String) (h : b ∈ adjOf M θ a) : b ∈ vertexSet M θ := by
  have hba : (b, a) ∈ edgesOf M θ := edgesOf_symm (mem_adjOf.mp h)
  unfold vertexSet
  rw [List.mem_toFinset, List.mem_map]
  exact ⟨(b, a), hba, rfl⟩

/-- Characterization of the adjacency keys. -/
theorem mem_keysOf {M : List ((String × String) × ℚ)} {θ : ℚ} {x : String} :
    x ∈ keysOf M θ ↔ x ∈ (edgesOf M θ).map (fun e => e.1) := by
  have haux : ∀ (l : List String) (acc : List String),
      x ∈ l.foldl (fun acc x => if x ∈ acc then acc else acc ++ [x]) acc ↔
        x ∈ acc ∨ x ∈ l := by
    intro l
    induction l with
    | nil => intro acc; simp
    | cons y rest ih =>
      intro acc
      rw [List.foldl_cons, ih]
      by_cases hy : y ∈ acc
      · simp only [if_pos hy, List.mem_cons]
        constructor
        · tauto
        · rintro (h | h | h)
          · tauto
          · rw [h]; exact Or.inl hy
          · tauto
      · simp only [if_neg hy, List.mem_append, List.mem_singleton,
          List.mem_cons]
        tauto
  unfold keysOf
  rw [haux]
  simp

/-- Keys lie in the vertex set. -/
theorem keysOf_subset_vertexSet (M : List ((String × String) × ℚ)) (θ : ℚ)
    (x : String) (h : x ∈ keysOf M θ) : x ∈ vertexSet M θ := by
  unfold vertexSet
  rw [List.mem_toFinset]
  exact mem_keysOf.mp h

/-- Reachability through vertices outside an avoided set: the paths the
breadth-first traversal of `identify_correlation_clusters` can follow
when `S` is the set of already-visited traders. -/
inductive ReachAvoid (M : List ((String × String) × ℚ)) (θ : ℚ)
    (S : Finset String) (a : String) : String → Prop where
  | refl : a ∉ S → ReachAvoid M θ S a a
  | step (b c : String) : ReachAvoid M θ S a b → c ∈ adjOf M θ b →
      c ∉ S → ReachAvoid M θ S a c

/-- The start of an avoiding path is outside the avoided set. -/
theorem ReachAvoid.start_not_mem {M : List ((String × String) × ℚ)} {θ : ℚ}
    {S : Finset String} {a x : String} (h : ReachAvoid M θ S a x) : a ∉ S := by
  induction h with
  | refl ha => exact ha
  | step b c _ _ _ ih => exact ih

/-- The end of an avoiding path is outside the avoided set. -/
theorem ReachAvoid.end_not_mem {M : List ((String × String) × ℚ)} {θ : ℚ}
    {S : Finset String} {a x : String} (h : ReachAvoid M θ S a x) : x ∉ S := by
  cases h with
  | refl ha => exact ha
  | step b c _ _ hc => exact hc

/-- Avoiding a smaller set preserves reachability. -/
theorem ReachAvoid.mono {M : List ((String × String) × ℚ)} {θ : ℚ}
    {S T : Finset String} {a x : String} (hST : S ⊆ T)
    (h : ReachAvoid M θ T a x) : ReachAvoid M θ S a x := by
  induction h with
  | refl ha => exact ReachAvoid.refl (fun hmem => ha (hST hmem))
  | step b c _ hadj hc ih =>
      exact ReachAvoid.step b c ih hadj (fun hmem => hc (hST hmem))

/-- A path can be prepended with an adjacent start vertex. -/
theorem ReachAvoid.prepend {M : List ((String × String) × ℚ)} {θ : ℚ}
    {S : Finset String} {q a x : String} (hq : q ∉ S) (hadj : a ∈ adjOf M θ q)
    (h : ReachAvoid M θ S a x) : ReachAvoid M θ S q x := by
  induction h with
  | refl ha => exact ReachAvoid.step q a (ReachAvoid.refl hq) hadj ha
  | step b c hab hbc hc ih => exact ReachAvoid.step b c ih hbc hc

/-- Avoiding reachability is transitive. -/
theorem ReachAvoid.trans {M : List ((String × String) × ℚ)} {θ : ℚ}
    {S : Finset String} {a b x : String} (h1 : ReachAvoid M θ S a b)
    (h2 : ReachAvoid M θ S b x) : ReachAvoid M θ S a x := by
  induction h2 with
  | refl _ => exact h1
  | step c d hbc hcd hd ih => exact ReachAvoid.step c d ih hcd hd

/-- Decomposition of an avoiding path relative to one more avoided
vertex: either the path already avoids it, or it ends there, or it can be
restarted from one of its neighbours. -/
theorem ReachAvoid.decomp {M : List ((String × String) × ℚ)} {θ : ℚ}
    {S : Finset String} {q a x : String} (h : ReachAvoid M θ S a x) :
    ReachAvoid M θ (insert q S) a x ∨ x = q ∨
      ∃ n, n ∈ adjOf M θ q ∧ n ∉ insert q S ∧
        ReachAvoid M θ (insert q S) n x := by
  induction h with
  | refl ha =>
    by_cases haq : a = q
    · exact Or.inr (Or.inl haq)
    · exact Or.inl (ReachAvoid.refl (by simp [haq, ha]))
  | step b c hab hbc hc ih =>
    by_cases hcq : c = q
    · exact Or.inr (Or.inl hcq)
    · have hc' : c ∉ insert q S := by simp [hcq, hc]
      rcases ih with ih | ih | ⟨n, hn1, hn2, hn3⟩
      · exact Or.inl (ReachAvoid.step b c ih hbc hc')
      · subst ih
        exact Or.inr (Or.inr ⟨c, hbc, hc', ReachAvoid.refl hc'⟩)
      · exact Or.inr (Or.inr ⟨n, hn1, hn2, ReachAvoid.step b c hn3 hbc hc'⟩)

/-- A set closed under the (symmetric) adjacency. -/
def AdjClosed (M : List ((String × String) × ℚ)) (θ : ℚ)
    (S : Finset String) : Prop :=
  ∀ u ∈ S, ∀ w ∈ adjOf M θ u, w ∈ S

/-- A plain path from a vertex outside an adjacency-closed set never
enters it. -/
theorem ReachAvoid.of_closed {M : List ((String × String) × ℚ)} {θ : ℚ}
    {S : Finset String} {a x : String} (hclosed : AdjClosed M θ S)
    (ha : a ∉ S) (h : ReachAvoid M θ (∅ : Finset String) a x) :
    ReachAvoid M θ S a x := by
  induction h with
  | refl _ =>
    exact ReachAvoid.refl ha
  | step c d hcd hadj hd ih =>
    have hcS : c ∉ S := ih.end_not_mem
    have hdS : d ∉ S := by
      intro hdS
      exact hcS (hclosed d hdS c (adjOf_symm hadj))
    exact ReachAvoid.step c d ih hadj hdS

/-- Embedding of the breadth-first traversal of
`identify_correlation_clusters` (lines 341-355): pop the queue head, skip
it if already visited, otherwise add it to `visited` and `cluster` and
enqueue its unvisited neighbours. The queue invariant (every queued
trader occurs in the adjacency) is carried to justify termination. -/
def bfsAux (M : List ((String × String) × ℚ)) (θ : ℚ) :
    (queue : List String) → (∀ x ∈ queue, x ∈ vertexSet M θ) →
    Finset String → Finset String → Finset String × Finset String
  | [], _, visited, cluster => (visited, cluster)
  | q :: queue, hq, visited, cluster =>
    if h : q ∈ visited then
      bfsAux M θ queue (fun x hx => hq x (List.mem_cons_of_mem q hx)) visited
        cluster
    else
      bfsAux M θ
        (queue ++ (adjOf M θ q).filter (fun n => n ∉ insert q visited))
        (fun x hx => by
          rcases List.mem_append.mp hx with hx | hx
          · exact hq x (List.mem_cons_of_mem q hx)
          · exact adjOf_subset_vertexSet M θ q x (List.mem_of_mem_filter hx))
        (insert q visited) (insert q cluster)
termination_by queue hq visited cluster =>
  ((vertexSet M θ \ visited).card, queue.length)
decreasing_by
  · apply Prod.Lex.right
    simp
  · apply Prod.Lex.left
    have hqV : q ∈ vertexSet M θ := hq q (List.mem_cons_self q queue)
    have hset : vertexSet M θ \ insert q visited =
        (vertexSet M θ \ visited).erase q := by
      ext z
      simp only [Finset.mem_sdiff, Finset.mem_erase, Finset.mem_insert]
      tauto
    rw [hset]
    exact Finset.card_erase_lt_of_mem (Finset.mem_sdiff.mpr ⟨hqV, h⟩)

/-- One expansion step of the traversal, as an equivalence of the
reachability descriptions before and after visiting the queue head. -/
theorem bfs_step_iff (M : List ((String × String) × ℚ)) (θ : ℚ)
    (q : String) (queue : List String) (visited B : Finset String)
    (hq : q ∉ visited) (x : String) :
    (x ∈ insert q B ∨ ∃ a ∈ queue ++
        (adjOf M θ q).filter (fun n => n ∉ insert q visited),
        ReachAvoid M θ (insert q visited) a x) ↔
    (x ∈ B ∨ ∃ a ∈ q :: queue, ReachAvoid M θ visited a x) := by
  constructor
  · rintro (hx | ⟨a, ha, hra⟩)
    · rcases Finset.mem_insert.mp hx with hx | hx
      · refine Or.inr ⟨q, List.mem_cons_self q queue, ?_⟩
        rw [hx]
        exact ReachAvoid.refl hq
      · exact Or.inl hx
    · rcases List.mem_append.mp ha with ha | ha
      · exact Or.inr ⟨a, List.mem_cons_of_mem q ha,
          hra.mono (Finset.subset_insert q visited)⟩
      · have hfa := List.mem_filter.mp ha
        have hadj : a ∈ adjOf M θ q := hfa.1
        refine Or.inr ⟨q, List.mem_cons_self q queue, ?_⟩
        exact ReachAvoid.prepend hq hadj
          (hra.mono (Finset.subset_insert q visited))
  · rintro (hx | ⟨a, ha, hra⟩)
    · exact Or.inl (Finset.mem_insert_of_mem hx)
    · rcases List.mem_cons.mp ha with ha | ha
      · rw [ha] at hra
        rcases @ReachAvoid.decomp M θ visited q q x hra
          with h | h | ⟨n, hn1, hn2, hn3⟩
        · exact absurd (Finset.mem_insert_self q visited)
            h.start_not_mem
        · subst h
          exact Or.inl (Finset.mem_insert_self x B)
        · refine Or.inr ⟨n, List.mem_append_right _ ?_, hn3⟩
          exact List.mem_filter.mpr ⟨hn1, by simpa using hn2⟩
      · rcases @ReachAvoid.decomp M θ visited q a x hra
          with h | h | ⟨n, hn1, hn2, hn3⟩
        · exact Or.inr ⟨a, List.mem_append_left _ ha, h⟩
        · subst h
          exact Or.inl (Finset.mem_insert_self x B)
        · refine Or.inr ⟨n, List.mem_append_right _ ?_, hn3⟩
          exact List.mem_filter.mpr ⟨hn1, by simpa using hn2⟩

/-- Specification of the traversal: the final visited set extends the
initial one by exactly the traders reachable from the queue while
avoiding the initially visited ones, and the produced cluster consists of
exactly those reachable traders. -/
theorem bfsAux_spec (M : List ((String × String) × ℚ)) (θ : ℚ) :
    ∀ (queue : List String) (hq : ∀ x ∈ queue, x ∈ vertexSet M θ)
      (visited cluster : Finset String),
    (∀ x, x ∈ (bfsAux M θ queue hq visited cluster).1 ↔
      x ∈ visited ∨ ∃ a ∈ queue, ReachAvoid M θ visited a x) ∧
    (∀ x, x ∈ (bfsAux M θ queue hq visited cluster).2 ↔
      x ∈ cluster ∨ ∃ a ∈ queue, ReachAvoid M θ visited a x) := by
  intro queue hq visited cluster
  induction queue, hq, visited, cluster using bfsAux.induct M θ with
  | case1 pf1 visited cluster pf2 =>
    rw [bfsAux]
    constructor <;> intro x <;> simp
  | case2 q queue hq visited cluster h hq2 ih =>
    rw [bfsAux, dif_pos h]
    have hskip : ∀ x, (∃ a ∈ q :: queue, ReachAvoid M θ visited a x) ↔
        ∃ a ∈ queue, ReachAvoid M θ visited a x := by
      intro x
      constructor
      · rintro ⟨a, ha, hra⟩
        rcases List.mem_cons.mp ha with ha | ha
        · subst ha
          exact absurd h hra.start_not_mem
        · exact ⟨a, ha, hra⟩
      · rintro ⟨a, ha, hra⟩
        exact ⟨a, List.mem_cons_of_mem q ha, hra⟩
    refine ⟨fun x => ?_, fun x => ?_⟩
    · rw [(ih.1 x), hskip]
    · rw [(ih.2 x), hskip]
  | case3 q queue hq visited cluster h hq2 ih =>
    rw [bfsAux, dif_neg h]
    refine ⟨fun x => ?_, fun x => ?_⟩
    · rw [(ih.1 x)]
      exact bfs_step_iff M θ q queue visited visited h x
    · rw [(ih.2 x)]
      exact bfs_step_iff M θ q queue visited cluster h x

/-- Embedding of the outer loop of `identify_correlation_clusters`
(lines 337-385): traverse the adjacency keys, run a breadth-first
traversal from each unvisited one, and keep the resulting component when
it has more than one trader. -/
def clustersLoop (M : List ((String × String) × ℚ)) (θ : ℚ) :
    (keys : List String) → (∀ x ∈ keys, x ∈ vertexSet M θ) →
    Finset String → List (Finset String) → List (Finset String)
  | [], _, _, acc => acc
  | t :: rest, hk, visited, acc =>
    if t ∈ visited then
      clustersLoop M θ rest (fun x hx => hk x (List.mem_cons_of_mem t hx))
        visited acc
    else
      if 1 < (bfsAux M θ [t] (fun x hx => by
          rw [List.mem_singleton.mp hx]
          exact hk t (List.mem_cons_self t rest)) visited ∅).2.card then
        clustersLoop M θ rest (fun x hx => hk x (List.mem_cons_of_mem t hx))
          (bfsAux M θ [t] (fun x hx => by
            rw [List.mem_singleton.mp hx]
            exact hk t (List.mem_cons_self t rest)) visited ∅).1
          (acc ++ [(bfsAux M θ [t] (fun x hx => by
            rw [List.mem_singleton.mp hx]
            exact hk t (List.mem_cons_self t rest)) visited ∅).2])
      else
        clustersLoop M θ rest (fun x hx => hk x (List.mem_cons_of_mem t hx))
          (bfsAux M θ [t] (fun x hx => by
            rw [List.mem_singleton.mp hx]
            exact hk t (List.mem_cons_self t rest)) visited ∅).1 acc

/-- Embedding of `identify_correlation_clusters` (lines 310-392), up to
the unmodelled per-cluster average-correlation annotation and final sort,
neither of which changes which traders share a cluster. -/
def identify_correlation_clusters (M : List ((String × String) × ℚ))
    (θ : ℚ) : List (Finset String) :=
  clustersLoop M θ (keysOf M θ)
    (fun x hx => keysOf_subset_vertexSet M θ x hx) ∅ []

/-- Clusters already accumulated stay in the output. -/
theorem mem_clustersLoop_of_mem_acc (M : List ((String × String) × ℚ))
    (θ : ℚ) :
    ∀ (keys : List String) (hk : ∀ x ∈ keys, x ∈ vertexSet M θ)
      (visited : Finset String) (acc : List (Finset String))
      (cl : Finset String),
    cl ∈ acc → cl ∈ clustersLoop M θ keys hk visited acc := by
  intro keys
  induction keys with
  | nil => intro hk visited acc cl hcl; exact hcl
  | cons t rest ih =>
    intro hk visited acc cl hcl
    rw [clustersLoop]
    by_cases h1 : t ∈ visited
    · rw [if_pos h1]
      exact ih _ visited acc cl hcl
    · rw [if_neg h1]
      by_cases h2 : 1 < (bfsAux M θ [t] (fun x hx => by
          rw [List.mem_singleton.mp hx]
          exact hk t (List.mem_cons_self t rest)) visited ∅).2.card
      · rw [if_pos h2]
        exact ih _ _ _ cl (List.mem_append_left _ hcl)
      · rw [if_neg h2]
        exact ih _ _ acc cl hcl

/-- Core lemma for C6: if some key is unvisited and two distinct traders
are both reachable from it, the loop produces a cluster containing both,
provided the visited set is adjacency-closed. -/
theorem clustersLoop_finds (M : List ((String × String) × ℚ)) (θ : ℚ) :
    ∀ (keys : List String) (hk : ∀ x ∈ keys, x ∈ vertexSet M θ)
      (visited : Finset String) (acc : List (Finset String)),
    AdjClosed M θ visited →
    ∀ t, t ∈ keys → t ∉ visited →
    ∀ x y, ReachAvoid M θ (∅ : Finset String) t x →
      ReachAvoid M θ (∅ : Finset String) t y → x ≠ y →
    ∃ cl ∈ clustersLoop M θ keys hk visited acc, x ∈ cl ∧ y ∈ cl := by
  intro keys
  induction keys with
  | nil =>
    intro hk visited acc _ t ht
    exact absurd ht (List.not_mem_nil t)
  | cons k rest ih =>
    intro hk visited acc hclosed t ht htv x y hx hy hxy
    rw [clustersLoop]
    by_cases hkv : k ∈ visited
    · rw [if_pos hkv]
      have htrest : t ∈ rest := by
        rcases List.mem_cons.mp ht with h | h
        · subst h; exact absurd hkv htv
        · exact h
      exact ih _ visited acc hclosed t htrest htv x y hx hy hxy
    · rw [if_neg hkv]
      have hpf : ∀ z ∈ [k], z ∈ vertexSet M θ := fun z hz => by
        rw [List.mem_singleton.mp hz]
        exact hk k (List.mem_cons_self k rest)
      have hspec := bfsAux_spec M θ [k] hpf visited ∅
      by_cases hconn : ReachAvoid M θ visited k t
      · have hx' : ReachAvoid M θ visited k x :=
          hconn.trans (hx.of_closed hclosed htv)
        have hy' : ReachAvoid M θ visited k y :=
          hconn.trans (hy.of_closed hclosed htv)
        have hxmem : x ∈ (bfsAux M θ [k] hpf visited ∅).2 :=
          (hspec.2 x).mpr (Or.inr ⟨k, List.mem_singleton_self k, hx'⟩)
        have hymem : y ∈ (bfsAux M θ [k] hpf visited ∅).2 :=
          (hspec.2 y).mpr (Or.inr ⟨k, List.mem_singleton_self k, hy'⟩)
        have hcard : 1 < (bfsAux M θ [k] hpf visited ∅).2.card :=
          Finset.one_lt_card.mpr ⟨x, hxmem, y, hymem, hxy⟩
        rw [if_pos hcard]
        refine ⟨(bfsAux M θ [k] hpf visited ∅).2, ?_, hxmem, hymem⟩
        exact mem_clustersLoop_of_mem_acc M θ rest _ _ _ _
          (List.mem_append_right _ (List.mem_singleton_self _))
      · have htr1 : t ∉ (bfsAux M θ [k] hpf visited ∅).1 := by
          intro hmem
          rcases (hspec.1 t).mp hmem with h | ⟨a, ha, hra⟩
          · exact htv h
          · rw [List.mem_singleton.mp ha] at hra
            exact hconn hra
        have hclosed' : AdjClosed M θ (bfsAux M θ [k] hpf visited ∅).1 := by
          intro u hu w hw
          rcases (hspec.1 u).mp hu with h | ⟨a, ha, hra⟩
          · exact (hspec.1 w).mpr (Or.inl (hclosed u h w hw))
          · rw [List.mem_singleton.mp ha] at hra
            by_cases hwv : w ∈ visited
            · exact (hspec.1 w).mpr (Or.inl hwv)
            · exact (hspec.1 w).mpr
                (Or.inr ⟨k, List.mem_singleton_self k,
                  ReachAvoid.step u w hra hw hwv⟩)
        have htrest : t ∈ rest := by
          rcases List.mem_cons.mp ht with h | h
          · subst h
            exact absurd (ReachAvoid.refl htv) hconn
          · exact h
        by_cases hcard : 1 < (bfsAux M θ [k] hpf visited ∅).2.card
        · rw [if_pos hcard]
          exact ih _ _ _ hclosed' t htrest htr1 x y hx hy hxy
        · rw [if_neg hcard]
          exact ih _ _ acc hclosed' t htrest htr1 x y hx hy hxy

/-- C6: if correlation(A, B) and correlation(B, C) reach the cluster
threshold while correlation(A, C) stays below it, A and C nevertheless
appear in the same cluster produced by the connected-components
clustering. -/
theorem cluster_transitivity (M : List ((String × String) × ℚ)) (θ : ℚ)
    (A B C : String) (sAB sBC : ℚ)
    (hAB : ((A, B), sAB) ∈ M) (hsAB : θ ≤ sAB)
    (hBC : ((B, C), sBC) ∈ M) (hsBC : θ ≤ sBC)
    (_hABne : A ≠ B) (_hBCne : B ≠ C) (hACne : A ≠ C)
    (_hAClow : ∀ s, ((A, C), s) ∈ M ∨ ((C, A), s) ∈ M → s < θ) :
    ∃ cl ∈ identify_correlation_clusters M θ, A ∈ cl ∧ C ∈ cl := by
  have heBA : (B, A) ∈ edgesOf M θ := mem_edgesOf.mpr ⟨sAB, Or.inr hAB, hsAB⟩
  have heBC : (B, C) ∈ edgesOf M θ := mem_edgesOf.mpr ⟨sBC, Or.inl hBC, hsBC⟩
  have hBkeys : B ∈ keysOf M θ :=
    mem_keysOf.mpr (List.mem_map.mpr ⟨(B, A), heBA, rfl⟩)
  have hconnA : ReachAvoid M θ (∅ : Finset String) B A :=
    ReachAvoid.step B A (ReachAvoid.refl (Finset.not_mem_empty B))
      (mem_adjOf.mpr heBA) (Finset.not_mem_empty A)
  have hconnC : ReachAvoid M θ (∅ : Finset String) B C :=
    ReachAvoid.step B C (ReachAvoid.refl (Finset.not_mem_empty B))
      (mem_adjOf.mpr heBC) (Finset.not_mem_empty C)
  have hclosed : AdjClosed M θ (∅ : Finset String) :=
    fun u hu => absurd hu (Finset.not_mem_empty u)
  exact clustersLoop_finds M θ (keysOf M θ)
    (fun x hx => keysOf_subset_vertexSet M θ x hx) ∅ [] hclosed
    B hBkeys (Finset.not_mem_empty B) A C hconnA hconnC hACne

/-- Concrete matrix for the C6 witness: A-B and B-C correlate at 0.7,
A-C only at 0.1, against threshold 0.6. -/
def c6matrix : List ((String × String) × ℚ) :=
  [(("A", "B"), 7/10), (("B", "C"), 7/10), (("A", "C"), 1/10)]

/-- Witness for C6: on the concrete matrix, A and C land in one cluster. -/
theorem cluster_transitivity_witness :
    ∃ cl ∈ identify_correlation_clusters c6matrix (6/10),
      "A" ∈ cl ∧ "C" ∈ cl := by
  apply cluster_transitivity c6matrix (6/10) "A" "B" "C" (7/10) (7/10)
  · simp [c6matrix]
  · norm_num
  · simp [c6matrix]
  · norm_num
  · simp
  · simp
  · simp
  · intro s hs
    rcases hs with hs | hs
    · simp [c6matrix] at hs
      rw [hs]
      norm_num
    · simp [c6matrix] at hs

/-! Copy-trade detector: `CopyTradeDetector.calculate_copy_score`
(copy_trade_detector.py, lines 131-253). Trade lists are ordered by
timestamp as delivered by the `ORDER BY timestamp` query. -/

/-- Market ids of a trader's trades, deduplicated in first-appearance
order (iteration of the Python market sets only affects list order, not
any of the counts, sums or means computed from them). -/
def marketIds (trades : List RTrade) : List String :=
  (trades.map (fun t => t.market_id)).foldl
    (fun acc x => if x ∈ acc then acc else acc ++ [x]) []

/-- Shared markets of a (leader, follower) pair (line 157). -/
def sharedList (tl tf : List RTrade) : List String :=
  (marketIds tl).filter (fun m => m ∈ marketIds tf)

/-- First trade of a trader on a market (first in timestamp order,
lines 106-120 and 184-185). -/
def firstTradeOn (trades : List RTrade) (m : String) : Option RTrade :=
  (trades.filter (fun t => t.market_id = m)).head?

/-- Embedding of `calculate_time_lag` (lines 91-129): follower's first
trade time minus leader's first trade time, in hours; none when either
never trades the market. -/
def calculate_time_lag (tl tf : List RTrade) (m : String) : Option ℚ :=
  match firstTradeOn tl m, firstTradeOn tf m with
  | some ta, some tb => some (tb.timestamp - ta.timestamp)
  | _, _ => none

/-- Outcome of a trader's first trade on a market (lines 184-185). -/
def firstOutcomeOn (trades : List RTrade) (m : String) : Option String :=
  ((trades.filter (fun t => t.market_id = m)).head?).map (fun t => t.outcome)

/-- The retained (market, lag) pairs: shared markets whose lag falls in
the plausible copying window `0.25 <= lag <= 48` hours (lines 177-181). -/
def retainedOn (tl tf : List RTrade) : List (String × ℚ) :=
  (sharedList tl tf).filterMap (fun m =>
    match calculate_time_lag tl tf m with
    | some lag => if 0.25 ≤ lag ∧ lag ≤ 48 then some (m, lag) else none
    | none => none)

/-- The metrics of `calculate_copy_score` referenced by the claims,
together with the retained lags. The square-root based fields
(`lag_std_dev`, `time_consistency` and hence `copy_score`) and
`volume_correlation` are not modelled: they need irrational reals and no
claim refers to them. -/
structure CopyMetrics where
  outcome_matching : ℚ
  order_preservation : ℚ
  shared_markets : ℕ
  avg_lag_hours : ℚ
  time_lags : List ℚ
deriving DecidableEq

/-- Embedding of `calculate_copy_score` (lines 131-253): the zero record
when fewer than 3 shared markets (the minimum 3 is hard-coded at line
159) or no retained lag; otherwise `outcome_matching` is the fraction of
retained markets whose first outcomes match case-insensitively,
`order_preservation` the fraction of retained lags that are strictly
positive, and the reported `shared_markets` is the number of retained
lags (line 245). -/
def calculate_copy_score (tl tf : List RTrade) : CopyMetrics :=
  let shared := sharedList tl tf
  if shared.length < 3 then ⟨0, 0, shared.length, 0, []⟩
  else
    let retained := retainedOn tl tf
    if retained.isEmpty then ⟨0, 0, shared.length, 0, []⟩
    else
      let lags := retained.map (fun p => p.2)
      let matched := (retained.filter (fun p =>
        (firstOutcomeOn tl p.1).map String.toLower =
          (firstOutcomeOn tf p.1).map String.toLower)).length
      let preserved := (retained.filter (fun p => 0 < p.2)).length
      ⟨(matched : ℚ) / (lags.length : ℚ),
       (preserved : ℚ) / (lags.length : ℚ),
       lags.length, lags.sum / (lags.length : ℚ), lags⟩

/-- Modelled from the spec: section 7 states that "all thresholds and
minimums referenced in section 4 are configuration, not hard-coded
constants in the core logic - a test suite must be able to inject
alternate thresholds", but the shared-market minimum of
`calculate_copy_score` is hard-coded to 3 at line 159 of
copy_trade_detector.py and cannot be injected. This variant takes that
minimum as a parameter and is otherwise the source computation. -/
def calculate_copy_score_min (minShared : ℕ) (tl tf : List RTrade) :
    CopyMetrics :=
  let shared := sharedList tl tf
  if shared.length < minShared then ⟨0, 0, shared.length, 0, []⟩
  else
    let retained := retainedOn tl tf
    if retained.isEmpty then ⟨0, 0, shared.length, 0, []⟩
    else
      let lags := retained.map (fun p => p.2)
      let matched := (retained.filter (fun p =>
        (firstOutcomeOn tl p.1).map String.toLower =
          (firstOutcomeOn tf p.1).map String.toLower)).length
      let preserved := (retained.filter (fun p => 0 < p.2)).length
      ⟨(matched : ℚ) / (lags.length : ℚ),
       (preserved : ℚ) / (lags.length : ℚ),
       lags.length, lags.sum / (lags.length : ℚ), lags⟩

/-- Retained lags lie in the copying window. -/
theorem retainedOn_window (tl tf : List RTrade) (p : String × ℚ)
    (hp : p ∈ retainedOn tl tf) : 0.25 ≤ p.2 ∧ p.2 ≤ 48 ∧ 0 < p.2 := by
  unfold retainedOn at hp
  rw [List.mem_filterMap] at hp
  obtain ⟨m, _, hm⟩ := hp
  cases hlag : calculate_time_lag tl tf m with
  | none => rw [hlag] at hm; simp at hm
  | some lag =>
    rw [hlag] at hm
    have hm' : (if 0.25 ≤ lag ∧ lag ≤ 48 then some (m, lag) else none) =
        some p := hm
    by_cases hcond : 0.25 ≤ lag ∧ lag ≤ 48
    · rw [if_pos hcond, Option.some.injEq] at hm'
      rw [← hm']
      refine ⟨hcond.1, hcond.2, ?_⟩
      have h1 := hcond.1
      norm_num at h1 ⊢
      linarith
    · rw [if_neg hcond] at hm'
      simp at hm'

/-- C10: every retained lag lies in the window [0.25, 48] hours and is
strictly positive, so for every (leader, follower) pair that reaches the
scored path with at least one retained lag, the order_preservation
sub-score equals exactly 1. -/
theorem order_preservation_always_one (tl tf : List RTrade)
    (hshared : 3 ≤ (sharedList tl tf).length)
    (hlags : retainedOn tl tf ≠ []) :
    (∀ p ∈ retainedOn tl tf, 0.25 ≤ p.2 ∧ p.2 ≤ 48 ∧ 0 < p.2) ∧
    (calculate_copy_score tl tf).order_preservation = 1 := by
  refine ⟨fun p hp => retainedOn_window tl tf p hp, ?_⟩
  have hall : (retainedOn tl tf).filter (fun p => 0 < p.2) =
      retainedOn tl tf := by
    rw [List.filter_eq_self]
    intro p hp
    have h1 := (retainedOn_window tl tf p hp).2.2
    simpa using h1
  have hne : ((retainedOn tl tf).length : ℚ) ≠ 0 := by
    simpa using fun h => hlags (List.length_eq_zero.mp h)
  simp only [calculate_copy_score]
  rw [if_neg (by omega), if_neg (by simpa [List.isEmpty_iff] using hlags),
    hall, List.length_map]
  exact div_self hne

/-- Leader trades for the C10 witness: three markets. -/
def c10tl : List RTrade :=
  [⟨"M1", "Yes", 0, "BUY", 1, 1⟩, ⟨"M2", "Yes", 0, "BUY", 1, 1⟩,
   ⟨"M3", "Yes", 0, "BUY", 1, 1⟩]

/-- Follower trades for the C10 witness: the same three markets one hour
later. -/
def c10tf : List RTrade :=
  [⟨"M1", "Yes", 1, "BUY", 1, 1⟩, ⟨"M2", "Yes", 1, "BUY", 1, 1⟩,
   ⟨"M3", "No", 1, "BUY", 1, 1⟩]

/-- Witness for C10: the concrete pair has three shared markets, three
retained lags, and order_preservation exactly 1. -/
theorem order_preservation_always_one_witness :
    (∀ p ∈ retainedOn c10tl c10tf, 0.25 ≤ p.2 ∧ p.2 ≤ 48 ∧ 0 < p.2) ∧
    (calculate_copy_score c10tl c10tf).order_preservation = 1 :=
  order_preservation_always_one c10tl c10tf
    (by simp [sharedList, marketIds, c10tl, c10tf])
    (by
      simp [retainedOn, sharedList, marketIds, calculate_time_lag,
        firstTradeOn, c10tl, c10tf]
      norm_num)

/-- Trader X trades of the C7 scenario: "Yes" on M1 at t = 0. -/
def c7x : List RTrade := [⟨"M1", "Yes", 0, "BUY", 1, 1⟩]

/-- Trader Y trades of the C7 scenario: "Yes" on M1 at t = 2h and "Yes"
on M2 at t = 1h (X never trades M2). -/
def c7y : List RTrade :=
  [⟨"M1", "Yes", 2, "BUY", 1, 1⟩, ⟨"M2", "Yes", 1, "BUY", 1, 1⟩]

/-- C7: on the end-to-end scenario the source's `calculate_copy_score`
returns the all-zero record (its shared-market minimum of 3 is hard-coded
and rejects the single shared market), while the spec-modelled variant
with the minimum injected as 1 reports exactly one retained lag of 2
hours, `order_preservation = 1` and `outcome_matching = 1` as the claim
demands. -/
theorem copy_score_hardcoded_minimum :
    calculate_copy_score c7x c7y =
      ⟨0, 0, 1, 0, []⟩ ∧
    (calculate_copy_score_min 1 c7x c7y).time_lags = [2] ∧
    (calculate_copy_score_min 1 c7x c7y).order_preservation = 1 ∧
    (calculate_copy_score_min 1 c7x c7y).outcome_matching = 1 := by
  have hshared : sharedList c7x c7y = ["M1"] := by
    simp [sharedList, marketIds, c7x, c7y]
  have hret : retainedOn c7x c7y = [("M1", 2)] := by
    simp [retainedOn, sharedList, marketIds, calculate_time_lag,
      firstTradeOn, c7x, c7y, List.filterMap_cons, List.find?]
    norm_num
  refine ⟨?_, ?_, ?_, ?_⟩
  · simp only [calculate_copy_score]
    rw [hshared]
    simp
  · simp only [calculate_copy_score_min]
    rw [hshared, hret]
    simp
  · simp only [calculate_copy_score_min]
    rw [hshared, hret]
    simp
  · simp only [calculate_copy_score_min]
    rw [hshared, hret]
    simp [firstOutcomeOn, c7x, c7y]

end TraderAnalytics
